import Mathlib

set_option autoImplicit false
set_option maxRecDepth 8000

/-!
Shallow embedding of the acquisition/windowing core of a solar-radio
data-acquisition tool.  The program has two variants: a synthetic-source
variant built on fixed-capacity ring buffers (`plot_inno2.py`) and a
TCP-socket variant built on a timestamp-evicted deque together with a
byte-stream de-framing loop and a uniform-grid aligner (`plot_tcp.py`).
Sample vectors are embedded as lists of rationals (magnitudes), raw socket
bytes as natural numbers, and decoded 32-bit little-endian words as the
natural number given by their bit pattern.
-/

namespace SolarRadio

variable {α : Type}

/-! ### Ring-variant sliding window (synthetic source)

In the source, `live_buffer` / `save_buffer` / `avg_buffer` are
fixed-capacity arrays with a write cursor (`live_index` etc.); each push
writes the sample at the cursor and advances the cursor modulo the
capacity.  The field `pushed` is a ghost counter of total pushes (not
stored by the program) used only to state wraparound properties. -/

structure RingWindow (α : Type) where
  buffer : List α
  idx : Nat
  pushed : Nat
deriving Repr, DecidableEq

/-- A ring window as allocated at session start: `np.zeros((cap, n))`
modelled as `cap` copies of the all-zero sample `z`, cursor at 0. -/
def RingWindow.init (cap : Nat) (z : α) : RingWindow α :=
  ⟨List.replicate cap z, 0, 0⟩

/-- One push: `buffer[idx, :] = sample; idx = (idx + 1) % steps`. -/
def RingWindow.push (w : RingWindow α) (v : α) : RingWindow α :=
  ⟨w.buffer.set w.idx v, (w.idx + 1) % w.buffer.length, w.pushed + 1⟩

/-- A whole sequence of pushes, oldest first. -/
def RingWindow.pushAll (w : RingWindow α) (s : List α) : RingWindow α :=
  s.foldl RingWindow.push w

/-- `buffer[i:] ++ buffer[:i]`, the wraparound rotation used by the code. -/
def rotAt (b : List α) (i : Nat) : List α := b.drop i ++ b.take i

/-- The chronological snapshot exactly as `update_plot` / `save_outputs`
compute it: `buffer.copy()` when the cursor is 0, otherwise
`np.vstack((buffer[idx:], buffer[:idx]))`. -/
def RingWindow.codeSnapshot (w : RingWindow α) : List α :=
  if w.idx = 0 then w.buffer else w.buffer.drop w.idx ++ w.buffer.take w.idx

theorem codeSnapshot_eq_rotAt (w : RingWindow α) :
    w.codeSnapshot = rotAt w.buffer w.idx := by
  unfold RingWindow.codeSnapshot rotAt
  by_cases h : w.idx = 0 <;> simp [h]

/-- Rotating the buffer at the cursor after a push drops the oldest entry
and appends the new one at the newest end. -/
theorem rotAt_set_push (b : List α) (i : Nat) (v : α) (h : i < b.length) :
    rotAt (b.set i v) ((i + 1) % b.length) = (rotAt b i).tail ++ [v] := by
  have hrhs : (List.drop i b ++ List.take i b).tail
      = b.drop (i + 1) ++ b.take i := by
    rw [List.drop_eq_getElem_cons h]
    rfl
  rcases Nat.lt_or_ge (i + 1) b.length with hc | hc
  · have hmod : (i + 1) % b.length = i + 1 := Nat.mod_eq_of_lt hc
    unfold rotAt
    rw [hmod, hrhs]
    have hdrop : (b.set i v).drop (i + 1) = b.drop (i + 1) := by
      rw [List.drop_set]
      simp
    have htake : (b.set i v).take (i + 1) = b.take i ++ [v] := by
      rw [List.set_eq_take_cons_drop v h]
      rw [List.take_append_eq_append_take]
      have hlt : (b.take i).length = i := List.length_take_of_le (Nat.le_of_lt h)
      rw [hlt]
      simp
    rw [hdrop, htake, List.append_assoc]
  · have hlen : b.length = i + 1 := Nat.le_antisymm hc (Nat.succ_le_of_lt h)
    have hmod : (i + 1) % b.length = 0 := by rw [hlen]; exact Nat.mod_self _
    unfold rotAt
    rw [hmod, hrhs]
    have hdropnil : b.drop (i + 1) = [] := by
      apply List.drop_eq_nil_of_le
      omega
    rw [List.set_eq_take_cons_drop v h, hdropnil]
    simp

/-- Core ring-buffer invariant: after `k` pushes of samples `s` into a
fresh window, the cursor is `k % cap`, and the buffer rotated at the
cursor equals the last `cap` entries of the padded history
`replicate cap z ++ s`. -/
theorem pushAll_inv (cap : Nat) (z : α) (s : List α) (hcap : 0 < cap) :
    ((RingWindow.init cap z).pushAll s).buffer.length = cap ∧
    ((RingWindow.init cap z).pushAll s).idx = s.length % cap ∧
    ((RingWindow.init cap z).pushAll s).pushed = s.length ∧
    rotAt ((RingWindow.init cap z).pushAll s).buffer
        ((RingWindow.init cap z).pushAll s).idx
      = (List.replicate cap z ++ s).drop s.length := by
  induction s using List.reverseRecOn with
  | nil =>
      refine ⟨by simp [RingWindow.pushAll, RingWindow.init], ?_, ?_, ?_⟩
      · simp [RingWindow.pushAll, RingWindow.init]
      · simp [RingWindow.pushAll, RingWindow.init]
      · simp [RingWindow.pushAll, RingWindow.init, rotAt]
  | append_singleton s v ih =>
      obtain ⟨ihlen, ihidx, ihpushed, ihrot⟩ := ih
      have hstep : (RingWindow.init cap z).pushAll (s ++ [v])
          = ((RingWindow.init cap z).pushAll s).push v := by
        unfold RingWindow.pushAll
        rw [List.foldl_append]
        rfl
      have hidxlt : ((RingWindow.init cap z).pushAll s).idx < cap := by
        rw [ihidx]; exact Nat.mod_lt _ hcap
      constructor
      · rw [hstep]; simp [RingWindow.push, ihlen]
      constructor
      · rw [hstep]
        show (((RingWindow.init cap z).pushAll s).idx + 1)
            % ((RingWindow.init cap z).pushAll s).buffer.length
          = (s ++ [v]).length % cap
        rw [ihlen, ihidx, Nat.mod_add_mod]
        simp
      constructor
      · rw [hstep]
        show ((RingWindow.init cap z).pushAll s).pushed + 1 = (s ++ [v]).length
        rw [ihpushed]; simp
      · rw [hstep]
        show rotAt (((RingWindow.init cap z).pushAll s).buffer.set
              ((RingWindow.init cap z).pushAll s).idx v)
            ((((RingWindow.init cap z).pushAll s).idx + 1)
              % ((RingWindow.init cap z).pushAll s).buffer.length)
          = (List.replicate cap z ++ (s ++ [v])).drop (s ++ [v]).length
        rw [rotAt_set_push _ _ _ (by rw [ihlen]; exact hidxlt), ihrot]
        have hlen2 : s.length + 1 ≤ (List.replicate cap z ++ s).length := by
          simp; omega
        rw [← List.append_assoc]
        rw [List.length_append, List.length_singleton]
        rw [List.drop_append_of_le_length hlen2]
        have htail : ((List.replicate cap z ++ s).drop s.length).tail
            = (List.replicate cap z ++ s).drop (s.length + 1) := by
          rw [← List.drop_one, List.drop_drop]
        rw [htail]

/-- C1: for the ring-variant sliding window with write cursor `idx`, the
chronologically ordered contents (oldest first) are
`buffer[idx:] ++ buffer[:idx]` — exactly the code's snapshot — once the
buffer has wrapped (`pushes ≥ capacity`), where they equal the last
`capacity` pushed samples in push order; and before the first wrap
(`pushes < capacity`) they are `buffer[:idx]`, which equals all pushed
samples in push order.  Both snapshots are therefore non-decreasing in push
order, oldest to newest. -/
theorem ring_snapshot_chronological (cap : Nat) (z : α) (s : List α) (hcap : 0 < cap) :
    (cap ≤ s.length →
      ((RingWindow.init cap z).pushAll s).codeSnapshot = s.drop (s.length - cap)) ∧
    (s.length < cap →
      ((RingWindow.init cap z).pushAll s).buffer.take
          ((RingWindow.init cap z).pushAll s).idx = s) := by
  obtain ⟨hlen, hidx, -, hrot⟩ := pushAll_inv cap z s hcap
  constructor
  · intro hwrap
    rw [codeSnapshot_eq_rotAt, hrot]
    have h1 : List.drop s.length (List.replicate cap z ++ s)
        = List.drop (s.length - cap) (List.drop cap (List.replicate cap z ++ s)) := by
      rw [List.drop_drop]
      congr 1
      omega
    rw [h1, List.drop_left' (List.length_replicate cap z)]
  · intro hlt
    have hidx2 : ((RingWindow.init cap z).pushAll s).idx = s.length := by
      rw [hidx]; exact Nat.mod_eq_of_lt hlt
    have hrot2 : rotAt ((RingWindow.init cap z).pushAll s).buffer
        ((RingWindow.init cap z).pushAll s).idx
        = List.replicate (cap - s.length) z ++ s := by
      rw [hrot, List.drop_append_of_le_length (by simp; omega),
        List.drop_replicate]
    have hdlen : (((RingWindow.init cap z).pushAll s).buffer.drop
        ((RingWindow.init cap z).pushAll s).idx).length = cap - s.length := by
      rw [List.length_drop, hlen, hidx2]
    have := congrArg (List.drop (cap - s.length)) hrot2
    rw [rotAt] at this
    rw [List.drop_left' hdlen] at this
    rw [List.drop_left' (by simp)] at this
    exact this

/-- Witness for C1 at capacity 3: after four pushes the snapshot is the
last three samples in order; after two pushes `buffer[:idx]` is both
samples in order. -/
theorem ring_snapshot_chronological_witness :
    ((RingWindow.init 3 (0 : Nat)).pushAll [1, 2, 3, 4]).codeSnapshot
        = [1, 2, 3, 4].drop (4 - 3) ∧
    ((RingWindow.init 3 (0 : Nat)).pushAll [5, 6]).buffer.take
        ((RingWindow.init 3 (0 : Nat)).pushAll [5, 6]).idx = [5, 6] := by
  refine ⟨?_, ?_⟩
  · exact (ring_snapshot_chronological 3 0 [1, 2, 3, 4] (by decide)).1 (by decide)
  · exact (ring_snapshot_chronological 3 0 [5, 6] (by decide)).2 (by decide)

/-! ### WindowSet: the three ring windows of the synthetic variant

`generate_data` writes each new sample to `live_buffer`, `save_buffer` and
`avg_buffer` inside one `with self.lock:` critical section, so readers
(which also take the lock) can only observe states between whole pushes. -/

structure WindowSet (α : Type) where
  live : RingWindow α
  save : RingWindow α
  avg : RingWindow α
deriving Repr, DecidableEq

/-- One iteration of `generate_data`'s critical section: the sample is
written to all three member windows before the lock is released. -/
def WindowSet.push (w : WindowSet α) (v : α) : WindowSet α :=
  ⟨w.live.push v, w.save.push v, w.avg.push v⟩

/-- C4: a `WindowSet` push applies the sample to every member window:
each per-window total-pushed count advances by exactly one, so equal counts
stay equal (no member window runs ahead of another), and the pushed sample
is present at the write position of every member buffer. -/
theorem windowset_push_atomic (w : WindowSet α) (v : α) :
    ((w.push v).live.pushed = w.live.pushed + 1 ∧
     (w.push v).save.pushed = w.save.pushed + 1 ∧
     (w.push v).avg.pushed = w.avg.pushed + 1) ∧
    (w.live.pushed = w.save.pushed ∧ w.save.pushed = w.avg.pushed →
      (w.push v).live.pushed = (w.push v).save.pushed ∧
      (w.push v).save.pushed = (w.push v).avg.pushed) ∧
    (w.live.idx < w.live.buffer.length →
      (w.push v).live.buffer[w.live.idx]? = some v) ∧
    (w.save.idx < w.save.buffer.length →
      (w.push v).save.buffer[w.save.idx]? = some v) ∧
    (w.avg.idx < w.avg.buffer.length →
      (w.push v).avg.buffer[w.avg.idx]? = some v) := by
  refine ⟨⟨rfl, rfl, rfl⟩, ?_, ?_, ?_, ?_⟩
  · intro h
    simp [WindowSet.push, RingWindow.push, h.1, h.2]
  · intro h
    exact List.getElem?_set_eq_of_lt v h
  · intro h
    exact List.getElem?_set_eq_of_lt v h
  · intro h
    exact List.getElem?_set_eq_of_lt v h

/-- Witness for C4 on a concrete window set of capacity 2. -/
theorem windowset_push_atomic_witness :
    ((WindowSet.push ⟨RingWindow.init 2 (0 : Nat), RingWindow.init 2 0,
        RingWindow.init 2 0⟩ 7).live.buffer[0]? = some 7) ∧
    ((WindowSet.push ⟨RingWindow.init 2 (0 : Nat), RingWindow.init 2 0,
        RingWindow.init 2 0⟩ 7).live.pushed
      = (WindowSet.push ⟨RingWindow.init 2 (0 : Nat), RingWindow.init 2 0,
        RingWindow.init 2 0⟩ 7).save.pushed) := by
  have h := windowset_push_atomic
    (⟨RingWindow.init 2 (0 : Nat), RingWindow.init 2 0, RingWindow.init 2 0⟩
      : WindowSet Nat) 7
  exact ⟨h.2.2.1 (by decide), (h.2.1 ⟨rfl, rfl⟩).1⟩

/-! ### Persistence and emptiness tests of the synthetic variant

Sample magnitudes are rationals; a sample vector is a row `List ℚ`. -/

/-- `np.all(buffer == 0)`: every magnitude of every stored row is zero. -/
def allZero (b : List (List ℚ)) : Bool :=
  b.all (fun r => r.all (fun x => x == 0))

/-- `np.linspace a b m`: `m` evenly spaced points from `a` to `b`
inclusive. -/
def linspace (a b : ℚ) (m : Nat) : List ℚ :=
  if m = 1 then [a]
  else (List.range m).map (fun i => a + (b - a) * i / (m - 1))

/-- Abstract record of one file written by `save_outputs` (the Persistence
collaborator's input: which files are written and with what payload). -/
inductive SavedFile where
  | fits (relTimes : List ℚ) (freqs : List ℚ) (data : List (List ℚ))
  | png (data : List (List ℚ))
deriving Repr, DecidableEq

/-- `save_outputs` of the synthetic variant, modelled as the list of files
it writes: nothing when `np.all(save_buffer == 0)`, otherwise the FITS
file (relative-time axis, frequency axis, chronologically rotated
`data_60s`) followed by the PNG of the same data. -/
def saveOutputsInno (saveWin : RingWindow (List ℚ)) (fs n : Nat)
    (saveDuration : ℚ) : List SavedFile :=
  if allZero saveWin.buffer then []
  else
    [SavedFile.fits (linspace (-saveDuration) 0 saveWin.buffer.length)
        (linspace 0 ((fs : ℚ) / 2) n) saveWin.codeSnapshot,
      SavedFile.png saveWin.codeSnapshot]

/-- The render tick's skip guard in `update_plot`: the frame is skipped
(and the timer re-armed) exactly when `np.all(live_buffer == 0)`. -/
def updateSkipsInno (liveWin : RingWindow (List ℚ)) : Bool :=
  allZero liveWin.buffer

theorem pushAll_replicate_buffer (cap k : Nat) (z : α) (w : RingWindow α)
    (hw : w.buffer = List.replicate cap z) :
    (w.pushAll (List.replicate k z)).buffer = List.replicate cap z := by
  induction k generalizing w with
  | zero => simpa [RingWindow.pushAll] using hw
  | succ k ih =>
      rw [List.replicate_succ]
      show ((w.push z).pushAll (List.replicate k z)).buffer = List.replicate cap z
      apply ih
      simp [RingWindow.push, hw, List.set_replicate_self]

theorem allZero_replicate (cap n : Nat) :
    allZero (List.replicate cap (List.replicate n (0 : ℚ))) = true := by
  rw [allZero, List.all_eq_true]
  intro r hr
  rcases List.mem_replicate.mp hr with ⟨-, hr0⟩
  rw [hr0, List.all_eq_true]
  intro x hx
  rcases List.mem_replicate.mp hx with ⟨-, hx0⟩
  simp [hx0]

/-- C10: in the synthetic variant, emptiness is decided by value, not by
count: after pushing any number of genuine all-zero sample vectors into a
fresh window, the buffer is indistinguishable from the freshly allocated
one, the render tick still skips, and `save_outputs` still writes zero
files. -/
theorem zero_samples_treated_as_empty (cap n k fs : Nat) (saveDur : ℚ) :
    ((RingWindow.init cap (List.replicate n (0 : ℚ))).pushAll
        (List.replicate k (List.replicate n 0))).buffer
      = (RingWindow.init cap (List.replicate n (0 : ℚ))).buffer ∧
    updateSkipsInno ((RingWindow.init cap (List.replicate n (0 : ℚ))).pushAll
        (List.replicate k (List.replicate n 0))) = true ∧
    saveOutputsInno ((RingWindow.init cap (List.replicate n (0 : ℚ))).pushAll
        (List.replicate k (List.replicate n 0))) fs n saveDur = [] := by
  have hbuf := pushAll_replicate_buffer cap k (List.replicate n (0 : ℚ))
    (RingWindow.init cap (List.replicate n 0)) rfl
  refine ⟨by rw [hbuf]; rfl, ?_, ?_⟩
  · rw [updateSkipsInno, hbuf]
    exact allZero_replicate cap n
  · rw [saveOutputsInno, hbuf, allZero_replicate cap n]
    rfl

/-! ### Deque-variant sliding window (socket source)

`receive_data_tcp` keeps two parallel Python lists `self.data` /
`self.timestamps`, appending a `(time.time(), sample)` pair for each
de-framed record and then popping leading entries older than the cutoff
`now - 10`.  The pair of parallel lists is embedded as one list of
`(timestamp, sample)` pairs, newest at the back. -/

structure DequeWindow (α : Type) where
  entries : List (ℚ × α)
deriving Repr, DecidableEq

/-- The eviction loop:
`while timestamps and timestamps[0] < cutoff: pop(0)`. -/
def evictOld (cutoff : ℚ) (l : List (ℚ × α)) : List (ℚ × α) :=
  l.dropWhile (fun p => decide (p.1 < cutoff))

/-- One iteration of `receive_data_tcp`'s critical section: append the
timestamped sample, then evict all leading entries with
`timestamp < now - horizon`. -/
def DequeWindow.push (horizon : ℚ) (w : DequeWindow α) (now : ℚ) (v : α) :
    DequeWindow α :=
  ⟨evictOld (now - horizon) (w.entries ++ [(now, v)])⟩

/-- A whole sequence of timestamped pushes, oldest first. -/
def DequeWindow.pushAll (horizon : ℚ) (w : DequeWindow α)
    (ps : List (ℚ × α)) : DequeWindow α :=
  ps.foldl (fun w p => w.push horizon p.1 p.2) w

theorem evictOld_all_ge (cutoff : ℚ) (l : List (ℚ × α))
    (hs : l.Pairwise (fun p q => p.1 ≤ q.1)) :
    ∀ p ∈ evictOld cutoff l, cutoff ≤ p.1 := by
  induction l with
  | nil => simp [evictOld]
  | cons a l ih =>
      by_cases ha : a.1 < cutoff
      · unfold evictOld
        rw [List.dropWhile_cons, if_pos (by simpa using ha)]
        exact ih hs.tail
      · unfold evictOld
        rw [List.dropWhile_cons, if_neg (by simpa using ha)]
        intro p hp
        rcases List.mem_cons.mp hp with h | h
        · rw [h]; exact le_of_not_lt ha
        · exact le_trans (le_of_not_lt ha) (List.rel_of_pairwise_cons hs h)

theorem push_deque_inv (horizon now : ℚ) (v : α) (w : DequeWindow α)
    (hs : w.entries.Pairwise (fun p q => p.1 ≤ q.1))
    (hle : ∀ p ∈ w.entries, p.1 ≤ now) :
    (w.push horizon now v).entries.Pairwise (fun p q => p.1 ≤ q.1) ∧
    (∀ p ∈ (w.push horizon now v).entries, now - horizon ≤ p.1) ∧
    (∀ p ∈ (w.push horizon now v).entries, p.1 ≤ now) := by
  have happ : (w.entries ++ [(now, v)]).Pairwise (fun p q => p.1 ≤ q.1) := by
    rw [List.pairwise_append]
    exact ⟨hs, List.pairwise_singleton _ _, by
      intro p hp q hq
      rw [List.mem_singleton.mp hq]
      exact hle p hp⟩
  have hsub : (w.push horizon now v).entries.Sublist (w.entries ++ [(now, v)]) :=
    List.dropWhile_sublist _
  refine ⟨List.Pairwise.sublist hsub happ, ?_, ?_⟩
  · exact evictOld_all_ge (now - horizon) _ happ
  · intro p hp
    rcases List.mem_append.mp (hsub.subset hp) with h | h
    · exact hle p h
    · rw [List.mem_singleton.mp h]

theorem pushAll_deque_inv (horizon : ℚ) (ps : List (ℚ × α))
    (w : DequeWindow α) (_hhor : 0 ≤ horizon)
    (hsw : w.entries.Pairwise (fun p q => p.1 ≤ q.1))
    (hsp : ps.Pairwise (fun p q => p.1 ≤ q.1))
    (hcross : ∀ p ∈ w.entries, ∀ q ∈ ps, p.1 ≤ q.1) :
    (DequeWindow.pushAll horizon w ps).entries.Pairwise (fun p q => p.1 ≤ q.1) ∧
    (∀ (h : ps ≠ []), ∀ p ∈ (DequeWindow.pushAll horizon w ps).entries,
      (ps.getLast h).1 - horizon ≤ p.1) := by
  induction ps generalizing w with
  | nil => exact ⟨hsw, fun h => absurd rfl h⟩
  | cons q rest ih =>
      have hle : ∀ p ∈ w.entries, p.1 ≤ q.1 := fun p hp =>
        hcross p hp q (List.mem_cons_self q rest)
      obtain ⟨hs1, hrecent, hle1⟩ := push_deque_inv horizon q.1 q.2 w hsw hle
      have hstep : DequeWindow.pushAll horizon w (q :: rest)
          = DequeWindow.pushAll horizon (w.push horizon q.1 q.2) rest := rfl
      have hcross1 : ∀ p ∈ (w.push horizon q.1 q.2).entries, ∀ r ∈ rest, p.1 ≤ r.1 := by
        intro p hp r hr
        exact le_trans (hle1 p hp) (List.rel_of_pairwise_cons hsp hr)
      obtain ⟨ihs, ihlast⟩ := ih (w.push horizon q.1 q.2) hs1 hsp.tail hcross1
      rw [hstep]
      refine ⟨ihs, ?_⟩
      intro hne p hp
      rcases eq_or_ne rest [] with hrest | hrne
      · subst hrest
        rw [List.getLast_singleton]
        exact hrecent p hp
      · rw [List.getLast_cons hrne]
        exact ihlast hrne p hp

/-- C3: for the deque-variant sliding window fed timestamps in
non-decreasing order, after every push (append followed by eviction at
cutoff `now - horizon`) the stored timestamps are non-decreasing front to
back, and every remaining timestamp is at least `now - horizon` where
`now` is the latest push's timestamp.  Stated for every prefix of the push
sequence, i.e. at every observation point. -/
theorem deque_window_invariants (horizon : ℚ) (ps : List (ℚ × α)) (i : Nat)
    (hhor : 0 ≤ horizon)
    (hsorted : ps.Pairwise (fun p q => p.1 ≤ q.1)) :
    (DequeWindow.pushAll horizon ⟨[]⟩ (ps.take i)).entries.Pairwise
        (fun p q => p.1 ≤ q.1) ∧
    ∀ (h : ps.take i ≠ []) p,
      p ∈ (DequeWindow.pushAll horizon ⟨[]⟩ (ps.take i)).entries →
        ((ps.take i).getLast h).1 - horizon ≤ p.1 := by
  have htake : (ps.take i).Pairwise (fun p q => p.1 ≤ q.1) :=
    List.Pairwise.sublist (List.take_sublist i ps) hsorted
  obtain ⟨h1, h2⟩ := pushAll_deque_inv horizon (ps.take i) ⟨[]⟩ hhor
    List.Pairwise.nil htake (by intro p hp; exact absurd hp (List.not_mem_nil p))
  exact ⟨h1, fun h p hp => h2 h p hp⟩

/-- Witness for C3: horizon 10, pushes at times 0, 5, 12; after the third
push the entry pushed at time 5 is still within the horizon of now = 12. -/
theorem deque_window_invariants_witness :
    (DequeWindow.pushAll 10 ⟨[]⟩ ([((0 : ℚ), (0 : ℚ)), (5, 1), (12, 2)].take 3)).entries.Pairwise
        (fun p q => p.1 ≤ q.1) ∧
    (([((0 : ℚ), (0 : ℚ)), (5, 1), (12, 2)].take 3).getLast (by simp)).1 - 10
      ≤ (5 : ℚ) := by
  have h := deque_window_invariants 10 [((0 : ℚ), (0 : ℚ)), (5, 1), (12, 2)] 3
    (by norm_num) (by norm_num [List.pairwise_cons])
  refine ⟨h.1, h.2 (by simp) (5, 1) ?_⟩
  have hent : (DequeWindow.pushAll 10 (⟨[]⟩ : DequeWindow ℚ)
      ([((0 : ℚ), (0 : ℚ)), (5, 1), (12, 2)].take 3)).entries
      = [(5, 1), (12, 2)] := by
    norm_num [DequeWindow.pushAll, DequeWindow.push, evictOld,
      List.dropWhile_cons, List.foldl]
  rw [hent]
  simp

/-! ### Persistence of the socket variant -/

/-- `save_outputs` of the socket variant, modelled as the list of files it
writes: nothing when `self.data` is empty, otherwise the FITS file
(relative times `timestamps - timestamps[-1]`, frequency axis, data rows)
followed by the PNG of the same rows. -/
def saveOutputsTcp (w : DequeWindow (List ℚ)) (freqs : List ℚ) :
    List SavedFile :=
  if w.entries = [] then []
  else
    [SavedFile.fits
        ((w.entries.map Prod.fst).map
          (fun t => t - (w.entries.map Prod.fst).getLastD 0))
        freqs (w.entries.map Prod.snd),
      SavedFile.png (w.entries.map Prod.snd)]

/-- The socket variant run on one sample per second for a minute: pushes
at times 0, 1, ..., 59 with the code's fixed eviction horizon of 10
seconds (`cutoff = time.time() - 10`). -/
def tcpSaveHorizonRun : DequeWindow (List ℚ) :=
  DequeWindow.pushAll 10 ⟨[]⟩
    ((List.range 60).map (fun i => ((i : ℚ), [(i : ℚ)])))

set_option maxHeartbeats 2000000 in
/-- C7: in the socket variant there is no separate long save window: after
60 seconds of one-per-second samples, the single 10-second deque holds
only the 11 samples with timestamps ≥ 49, and `save_outputs` persists
exactly those rows (labelled a "60s Spectrogram Snapshot" by the code)
rather than a 60-second save horizon's worth of data. -/
theorem tcp_save_persists_only_live_horizon :
    tcpSaveHorizonRun.entries =
      [((49 : ℚ), [(49 : ℚ)]), (50, [50]), (51, [51]), (52, [52]), (53, [53]),
        (54, [54]), (55, [55]), (56, [56]), (57, [57]), (58, [58]), (59, [59])] ∧
    saveOutputsTcp tcpSaveHorizonRun [] =
      [SavedFile.fits [-10, -9, -8, -7, -6, -5, -4, -3, -2, -1, 0] []
          [[49], [50], [51], [52], [53], [54], [55], [56], [57], [58], [59]],
        SavedFile.png
          [[49], [50], [51], [52], [53], [54], [55], [56], [57], [58], [59]]] := by
  have hent : tcpSaveHorizonRun.entries =
      [((49 : ℚ), [(49 : ℚ)]), (50, [50]), (51, [51]), (52, [52]), (53, [53]),
        (54, [54]), (55, [55]), (56, [56]), (57, [57]), (58, [58]), (59, [59])] := by
    norm_num [tcpSaveHorizonRun, DequeWindow.pushAll, DequeWindow.push,
      evictOld, List.dropWhile_cons, List.foldl, List.range_succ]
  refine ⟨hent, ?_⟩
  unfold saveOutputsTcp
  rw [hent, if_neg (by simp)]
  norm_num [List.getLastD]

/-- C9: persisting a freshly started, empty window writes zero files in
both variants (the socket variant checks `if not self.data`, the synthetic
variant checks `np.all(save_buffer == 0)` on the freshly zeroed buffer),
and being a total function it returns without error and changes no
state. -/
theorem empty_window_persistence_noop (freqs : List ℚ) (cap n fs : Nat)
    (saveDur : ℚ) :
    saveOutputsTcp ⟨[]⟩ freqs = [] ∧
    saveOutputsInno (RingWindow.init cap (List.replicate n (0 : ℚ))) fs n
        saveDur = [] := by
  constructor
  · rfl
  · rw [saveOutputsInno]
    have : allZero (RingWindow.init cap (List.replicate n (0 : ℚ))).buffer
        = true := allZero_replicate cap n
    rw [this]
    rfl

/-! ### Socket de-framing

`receive_data_tcp` accumulates raw bytes (`buffer += conn.recv(4096)`) and
extracts one record per loop iteration while `len(buffer) >= n * 4`:
`sample = np.frombuffer(buffer[:n*4], dtype=np.float32)` then
`buffer = buffer[n*4:]`.  Bytes are embedded as natural numbers and each
little-endian 4-byte group as the natural number given by its 32-bit
pattern (`np.float32` values are compared by bit pattern).  The loop is
only reached after validation has ensured `n > 0`; the model's guard
carries that condition explicitly (with `n = 0` the Python loop would
never terminate). -/

/-- Little-endian decoding of four raw bytes into their 32-bit pattern. -/
def leWord32 (b0 b1 b2 b3 : Nat) : Nat :=
  b0 + 256 * b1 + 65536 * b2 + 16777216 * b3

/-- `np.frombuffer(bytes, dtype=np.float32)` on a `4*n`-byte record:
`n` words, the `i`-th from bytes `4*i .. 4*i+3` little-endian. -/
def decodeRecord (n : Nat) (bytes : List Nat) : List Nat :=
  (List.range n).map (fun i =>
    leWord32 (bytes.getD (4 * i) 0) (bytes.getD (4 * i + 1) 0)
      (bytes.getD (4 * i + 2) 0) (bytes.getD (4 * i + 3) 0))

/-- The inner `while len(buffer) >= n * 4` loop: the list of samples it
extracts (FIFO) and the remaining (partial-record) buffer. -/
def drainBuffer (n : Nat) (buf : List Nat) : List (List Nat) × List Nat :=
  if h : 0 < n ∧ 4 * n ≤ buf.length then
    let p := drainBuffer n (buf.drop (4 * n))
    (decodeRecord n (buf.take (4 * n)) :: p.1, p.2)
  else ([], buf)
termination_by buf.length
decreasing_by
  simp only [List.length_drop]
  omega

/-- One `conn.recv` arrival: append the chunk to the carried buffer and
run the extraction loop, accumulating the extracted samples. -/
def feedChunk (n : Nat) (st : List (List Nat) × List Nat)
    (chunk : List Nat) : List (List Nat) × List Nat :=
  let p := drainBuffer n (st.2 ++ chunk)
  (st.1 ++ p.1, p.2)

/-- A whole session of arrivals starting from an empty buffer. -/
def feedChunks (n : Nat) (chunks : List (List Nat)) :
    List (List Nat) × List Nat :=
  chunks.foldl (feedChunk n) ([], [])

theorem drainBuffer_step (n : Nat) (buf : List Nat)
    (h : 0 < n ∧ 4 * n ≤ buf.length) :
    drainBuffer n buf
      = (decodeRecord n (buf.take (4 * n))
            :: (drainBuffer n (buf.drop (4 * n))).1,
         (drainBuffer n (buf.drop (4 * n))).2) := by
  rw [drainBuffer]
  simp [h]

theorem drainBuffer_stop (n : Nat) (buf : List Nat)
    (h : ¬(0 < n ∧ 4 * n ≤ buf.length)) :
    drainBuffer n buf = ([], buf) := by
  rw [drainBuffer]
  simp [h]

/-- Draining `b1 ++ b2` is draining `b1`, then draining the leftover with
`b2` appended: the extraction loop is insensitive to where the byte stream
was split. -/
theorem drainBuffer_append (n : Nat) (b1 b2 : List Nat) :
    drainBuffer n (b1 ++ b2)
      = ((drainBuffer n b1).1
            ++ (drainBuffer n ((drainBuffer n b1).2 ++ b2)).1,
         (drainBuffer n ((drainBuffer n b1).2 ++ b2)).2) := by
  by_cases h : 0 < n ∧ 4 * n ≤ b1.length
  · have h2 : 0 < n ∧ 4 * n ≤ (b1 ++ b2).length :=
      ⟨h.1, by rw [List.length_append]; omega⟩
    rw [drainBuffer_step n (b1 ++ b2) h2, drainBuffer_step n b1 h]
    rw [List.take_append_of_le_length h.2, List.drop_append_of_le_length h.2]
    rw [drainBuffer_append n (b1.drop (4 * n)) b2]
    simp
  · rw [drainBuffer_stop n b1 h]
    rfl
termination_by b1.length
decreasing_by
  simp only [List.length_drop]
  omega

/-- The leftover of a drained buffer is already fully drained. -/
theorem drainBuffer_leftover (n : Nat) (buf : List Nat) :
    drainBuffer n (drainBuffer n buf).2 = ([], (drainBuffer n buf).2) := by
  by_cases h : 0 < n ∧ 4 * n ≤ buf.length
  · rw [drainBuffer_step n buf h]
    exact drainBuffer_leftover n (buf.drop (4 * n))
  · rw [drainBuffer_stop n buf h]
    exact drainBuffer_stop n buf h
termination_by buf.length
decreasing_by
  simp only [List.length_drop]
  omega

theorem feedChunks_aux (n : Nat) (chunks : List (List Nat)) :
    ∀ (acc : List (List Nat)) (left : List Nat),
      drainBuffer n left = ([], left) →
      chunks.foldl (feedChunk n) (acc, left)
        = (acc ++ (drainBuffer n (left ++ chunks.flatten)).1,
           (drainBuffer n (left ++ chunks.flatten)).2) := by
  induction chunks with
  | nil =>
      intro acc left hleft
      simp [hleft]
  | cons c rest ih =>
      intro acc left hleft
      rw [List.foldl_cons]
      have hstep : feedChunk n (acc, left) c
          = (acc ++ (drainBuffer n (left ++ c)).1,
             (drainBuffer n (left ++ c)).2) := rfl
      rw [hstep, ih _ _ (drainBuffer_leftover n (left ++ c))]
      rw [List.flatten_cons, ← List.append_assoc]
      rw [drainBuffer_append n (left ++ c) rest.flatten]
      simp

/-- Feeding any sequence of chunks is the same as draining their
concatenation in one step: the produced samples and the retained partial
record do not depend on the chunk boundaries. -/
theorem feedChunks_eq_drain (n : Nat) (chunks : List (List Nat)) :
    feedChunks n chunks = drainBuffer n chunks.flatten := by
  rw [feedChunks, feedChunks_aux n chunks [] []
    (drainBuffer_stop n [] (by intro hc; simp at hc; omega))]
  simp

/-- Draining a stream of complete `4*n`-byte records followed by a
partial record yields exactly those records decoded, in stream order,
with the partial record retained. -/
theorem drainBuffer_records (n : Nat) (recs : List (List Nat))
    (tail : List Nat) (hn : 0 < n)
    (hrecs : ∀ r ∈ recs, r.length = 4 * n) (htail : tail.length < 4 * n) :
    drainBuffer n (recs.flatten ++ tail)
      = (recs.map (decodeRecord n), tail) := by
  induction recs with
  | nil =>
      rw [List.flatten_nil, List.nil_append, List.map_nil]
      exact drainBuffer_stop n tail (by intro hc; omega)
  | cons r rest ih =>
      have hr : r.length = 4 * n := hrecs r (List.mem_cons_self r rest)
      rw [List.flatten_cons, List.append_assoc]
      rw [drainBuffer_step n _ ⟨hn, by rw [List.length_append, hr]; omega⟩]
      rw [List.take_left' hr, List.drop_left' hr]
      rw [ih (fun q hq => hrecs q (List.mem_cons_of_mem r hq))]
      rfl

/-- C2: feeding the receiver a byte stream holding `K` complete records of
`n` little-endian 32-bit floats plus a trailing partial record, split into
arbitrary chunks, produces exactly the `K` records decoded in FIFO stream
order and retains the partial record in the accumulation buffer; the
result is independent of the chunk boundaries. -/
theorem socket_deframing (n : Nat) (recs : List (List Nat))
    (tail : List Nat) (chunks : List (List Nat)) (hn : 0 < n)
    (hrecs : ∀ r ∈ recs, r.length = 4 * n) (htail : tail.length < 4 * n)
    (hstream : chunks.flatten = recs.flatten ++ tail) :
    feedChunks n chunks = (recs.map (decodeRecord n), tail) := by
  rw [feedChunks_eq_drain, hstream,
    drainBuffer_records n recs tail hn hrecs htail]

/-- Witness for C2: two 4-byte records and one partial byte, delivered in
three ragged chunks. -/
theorem socket_deframing_witness :
    feedChunks 1 [[1], [0, 0, 0, 2, 0], [0, 0, 9]]
      = ([[1, 0, 0, 0], [2, 0, 0, 0]].map (decodeRecord 1), [9]) :=
  socket_deframing 1 [[1, 0, 0, 0], [2, 0, 0, 0]] [9]
    [[1], [0, 0, 0, 2, 0], [0, 0, 9]] (by decide)
    (by decide) (by decide) (by decide)

/-! ### Grid alignment (socket variant's render tick)

`update_plot` builds `full_times = np.linspace(-10, 0, num_steps)` and
`aligned_data = np.full((num_steps, n), np.nan)`, then for each snapshot
sample `(t, d)` computes `idx = np.searchsorted(full_times, t)` and writes
`aligned_data[idx] = d` when `0 <= idx < num_steps`.  A missing-sentinel
(NaN) row is embedded as `none`, an assigned row as `some vector`. -/

/-- `np.searchsorted(grid, t)` with the default left side on a sorted
grid: the left insertion index, i.e. the number of grid points strictly
below `t`. -/
def searchsortedLeft (grid : List ℚ) (t : ℚ) : Nat :=
  grid.countP (fun x => decide (x < t))

/-- One loop iteration: `idx = np.searchsorted(full_times, t)`;
`if 0 <= idx < num_steps: aligned_data[idx] = d` (the lower bound is
automatic for a natural-number index). -/
def alignStep (grid : List ℚ) (cells : List (Option α)) (s : ℚ × α) :
    List (Option α) :=
  if searchsortedLeft grid s.1 < grid.length then
    cells.set (searchsortedLeft grid s.1) (some s.2)
  else cells

/-- The full alignment loop over the snapshot, starting from the all-NaN
grid. -/
def alignAll (grid : List ℚ) (samples : List (ℚ × α)) : List (Option α) :=
  samples.foldl (alignStep grid) (List.replicate grid.length none)

/-- On a sorted grid, the left insertion index is the index of the first
grid point at or after `t`: everything before it is strictly below `t`,
and the point at it (when in range) is at or above `t`. -/
theorem sorted_countP_lt (t : ℚ) (l : List ℚ) (hs : l.Pairwise (· ≤ ·)) :
    (∀ i, i < l.countP (fun x => decide (x < t)) → l.getD i 0 < t) ∧
    (l.countP (fun x => decide (x < t)) < l.length →
      t ≤ l.getD (l.countP (fun x => decide (x < t))) 0) := by
  induction l with
  | nil => exact ⟨fun i hi => absurd hi (by simp), fun h => absurd h (by simp)⟩
  | cons a l ih =>
      obtain ⟨ih1, ih2⟩ := ih hs.tail
      by_cases ha : a < t
      · have hc : (a :: l).countP (fun x => decide (x < t))
            = l.countP (fun x => decide (x < t)) + 1 := by
          rw [List.countP_cons]
          simp [ha]
        constructor
        · intro i hi
          rw [hc] at hi
          cases i with
          | zero => simpa using ha
          | succ i =>
              rw [List.getD_cons_succ]
              exact ih1 i (by omega)
        · intro hlt
          rw [hc] at hlt ⊢
          rw [List.getD_cons_succ]
          rw [List.length_cons] at hlt
          exact ih2 (by omega)
      · have hz : l.countP (fun x => decide (x < t)) = 0 := by
          rw [List.countP_eq_zero]
          intro x hx
          simp only [decide_eq_true_eq]
          intro hxt
          exact ha (lt_of_le_of_lt (List.rel_of_pairwise_cons hs hx) hxt)
        have hc : (a :: l).countP (fun x => decide (x < t)) = 0 := by
          rw [List.countP_cons, hz]
          simp [ha]
        constructor
        · intro i hi
          rw [hc] at hi
          omega
        · intro _
          rw [hc, List.getD_cons_zero]
          exact le_of_not_lt ha

theorem alignAll_length (grid : List ℚ) (samples : List (ℚ × α)) :
    (alignAll grid samples).length = grid.length := by
  induction samples using List.reverseRecOn with
  | nil => simp [alignAll]
  | append_singleton l a ih =>
      rw [alignAll, List.foldl_append]
      show (alignStep grid (alignAll grid l) a).length = grid.length
      unfold alignStep
      by_cases hg : searchsortedLeft grid a.1 < grid.length
      · rw [if_pos hg, List.length_set]
        exact ih
      · rw [if_neg hg]
        exact ih

/-- Each aligned cell holds the vector of the last snapshot sample whose
insertion index is that cell, or the missing sentinel if no sample maps
there. -/
theorem alignAll_cell (grid : List ℚ) (samples : List (ℚ × α)) (j : Nat)
    (hj : j < grid.length) :
    (alignAll grid samples).getD j none
      = ((samples.filter (fun s => searchsortedLeft grid s.1 == j)).map
          Prod.snd).getLast? := by
  induction samples using List.reverseRecOn with
  | nil =>
      simp only [alignAll, List.foldl_nil, List.filter_nil, List.map_nil,
        List.getLast?_nil]
      rw [List.getD_eq_getElem?_getD, List.getElem?_replicate, if_pos hj]
      rfl
  | append_singleton l a ih =>
      have hstep : alignAll grid (l ++ [a])
          = alignStep grid (alignAll grid l) a := by
        rw [alignAll, List.foldl_append]
        rfl
      rw [hstep, List.filter_append, List.map_append]
      by_cases hja : searchsortedLeft grid a.1 = j
      · have hfa : List.filter (fun s => searchsortedLeft grid s.1 == j) [a]
            = [a] := by
          simp [List.filter_cons, hja]
        rw [hfa]
        unfold alignStep
        rw [if_pos (hja ▸ hj), hja]
        rw [List.getD_eq_getElem?_getD,
          List.getElem?_set_eq_of_lt (some a.2)
            (by rw [alignAll_length]; exact hj)]
        simp [List.getLast?_concat]
      · have hfa : List.filter (fun s => searchsortedLeft grid s.1 == j) [a]
            = [] := by
          simp [List.filter_cons, hja]
        rw [hfa, List.map_nil, List.append_nil]
        unfold alignStep
        by_cases hg : searchsortedLeft grid a.1 < grid.length
        · rw [if_pos hg]
          rw [List.getD_eq_getElem?_getD, List.getElem?_set_ne hja,
            ← List.getD_eq_getElem?_getD]
          exact ih
        · rw [if_neg hg]
          exact ih

/-- C5: the grid aligner maps each snapshot sample with relative time `t`
to the left insertion index of `t` in the sorted uniform grid (the first
grid point at or after `t`); the sample's vector lands in that cell
exactly when the index is within range, later snapshot samples mapped to
the same cell overwrite earlier ones, and every cell with no mapped
sample keeps the missing sentinel. -/
theorem grid_aligner_correct (grid : List ℚ) (samples : List (ℚ × α))
    (hsorted : grid.Pairwise (· ≤ ·)) :
    (∀ t : ℚ,
      (∀ i, i < searchsortedLeft grid t → grid.getD i 0 < t) ∧
      (searchsortedLeft grid t < grid.length →
        t ≤ grid.getD (searchsortedLeft grid t) 0)) ∧
    (∀ j, j < grid.length →
      (alignAll grid samples).getD j none
        = ((samples.filter (fun s => searchsortedLeft grid s.1 == j)).map
            Prod.snd).getLast?) :=
  ⟨fun t => sorted_countP_lt t grid hsorted,
   fun j hj => alignAll_cell grid samples j hj⟩

/-- Witness for C5: grid `[-2, -1, 0]`; two samples collide on cell 1
(last one wins) and a sample beyond the grid is discarded. -/
theorem grid_aligner_correct_witness :
    (alignAll [(-2 : ℚ), -1, 0]
        [((-3/2 : ℚ), (10 : ℚ)), (-3/2, 20), (5, 30)]).getD 1 none
      = (([((-3/2 : ℚ), (10 : ℚ)), (-3/2, 20), (5, 30)].filter
          (fun s => searchsortedLeft [(-2 : ℚ), -1, 0] s.1 == 1)).map
            Prod.snd).getLast? :=
  (grid_aligner_correct [(-2 : ℚ), -1, 0]
      [((-3/2 : ℚ), (10 : ℚ)), (-3/2, 20), (5, 30)]
      (by norm_num [List.pairwise_cons])).2 1 (by simp)

/-! ### Aggregator (synthetic variant's average-window statistic) -/

/-- `np.mean(avg_data, axis=0)`: the column-wise arithmetic mean of the
snapshot's rows, one entry per frequency bin. -/
def meanSpectrum (n : Nat) (rows : List (List ℚ)) : List ℚ :=
  (List.range n).map (fun j =>
    (rows.map (fun r => r.getD j 0)).sum / (rows.length : ℚ))

/-- `np.argmax`: the index of the first occurrence of the maximum. -/
def argmaxFirst : List ℚ → Nat
  | [] => 0
  | [_] => 0
  | x :: y :: rest =>
      if x < (y :: rest).getD (argmaxFirst (y :: rest)) 0 then
        argmaxFirst (y :: rest) + 1
      else 0

/-- `argmaxFirst` attains the maximum and is the smallest index doing
so. -/
theorem argmaxFirst_spec (l : List ℚ) (hne : l ≠ []) :
    argmaxFirst l < l.length ∧
    (∀ i, i < l.length → l.getD i 0 ≤ l.getD (argmaxFirst l) 0) ∧
    (∀ i, i < argmaxFirst l → l.getD i 0 < l.getD (argmaxFirst l) 0) := by
  induction l with
  | nil => exact absurd rfl hne
  | cons x l ih =>
      cases l with
      | nil =>
          refine ⟨by simp [argmaxFirst], ?_, ?_⟩
          · intro i hi
            simp only [List.length_singleton] at hi
            have hi0 : i = 0 := by omega
            subst hi0
            simp [argmaxFirst]
          · intro i hi
            simp [argmaxFirst] at hi
      | cons y rest =>
          obtain ⟨ihlt, ihmax, ihfirst⟩ := ih (by simp)
          by_cases hgt : x < (y :: rest).getD (argmaxFirst (y :: rest)) 0
          · have harg : argmaxFirst (x :: y :: rest)
                = argmaxFirst (y :: rest) + 1 := by
              rw [argmaxFirst, if_pos hgt]
            rw [harg]
            refine ⟨by simpa using ihlt, ?_, ?_⟩
            · intro i hi
              cases i with
              | zero =>
                  rw [List.getD_cons_zero, List.getD_cons_succ]
                  exact le_of_lt hgt
              | succ i =>
                  rw [List.getD_cons_succ, List.getD_cons_succ]
                  exact ihmax i (by simpa using hi)
            · intro i hi
              cases i with
              | zero =>
                  rw [List.getD_cons_zero, List.getD_cons_succ]
                  exact hgt
              | succ i =>
                  rw [List.getD_cons_succ, List.getD_cons_succ]
                  exact ihfirst i (by omega)
          · have harg : argmaxFirst (x :: y :: rest) = 0 := by
              rw [argmaxFirst, if_neg hgt]
            rw [harg]
            refine ⟨by simp, ?_, ?_⟩
            · intro i hi
              cases i with
              | zero => exact le_refl _
              | succ i =>
                  rw [List.getD_cons_succ, List.getD_cons_zero]
                  exact le_trans (ihmax i (by simpa using hi))
                    (le_of_not_lt hgt)
            · intro i hi
              omega

/-- The aggregator `peak_freq = self.freqs[np.argmax(avg_spectrum)]`
computed from a window snapshot.  Modelled from the spec: the
empty-snapshot branch ("if snapshot is empty, reports unavailable",
embedded as `none`) is not reachable in `plot_inno2.py`, whose render
tick returns before aggregating while the buffers are still all-zero; the
non-empty branch is the code's
`self.freqs[np.argmax(np.mean(avg_data, axis=0))]`. -/
def peak_frequency (freqs : List ℚ) (n : Nat) (snapshot : List (List ℚ)) :
    Option ℚ :=
  match snapshot with
  | [] => none
  | _ :: _ => some (freqs.getD (argmaxFirst (meanSpectrum n snapshot)) 0)

/-- C6: for a non-empty snapshot the aggregator returns the
frequency-axis value at the smallest index attaining the maximum of the
column-wise mean spectrum; ties resolve to the lowest index (equal maxima
at bins 3 and 7 yield the frequency at bin 3); an empty snapshot yields
`none` ("unavailable") rather than a frequency. -/
theorem aggregator_peak_frequency (freqs : List ℚ) (n : Nat)
    (snapshot : List (List ℚ)) (hn : 0 < n) (hne : snapshot ≠ []) :
    (∃ j, j < n ∧
      peak_frequency freqs n snapshot = some (freqs.getD j 0) ∧
      (∀ i, i < n → (meanSpectrum n snapshot).getD i 0
          ≤ (meanSpectrum n snapshot).getD j 0) ∧
      (∀ i, i < j → (meanSpectrum n snapshot).getD i 0
          < (meanSpectrum n snapshot).getD j 0)) ∧
    peak_frequency freqs n [] = none ∧
    peak_frequency [0, 1, 2, 3, 4, 5, 6, 7] 8 [[0, 0, 0, 9, 0, 0, 0, 9]]
      = some 3 := by
  have hmlen : (meanSpectrum n snapshot).length = n := by
    simp [meanSpectrum]
  have hmne : meanSpectrum n snapshot ≠ [] := by
    intro hc
    rw [hc] at hmlen
    simp at hmlen
    omega
  obtain ⟨hlt, hmax, hfirst⟩ := argmaxFirst_spec (meanSpectrum n snapshot) hmne
  refine ⟨⟨argmaxFirst (meanSpectrum n snapshot), ?_, ?_, ?_, ?_⟩, rfl, ?_⟩
  · exact lt_of_lt_of_eq hlt hmlen
  · rcases snapshot with _ | ⟨r, rest⟩
    · exact absurd rfl hne
    · rfl
  · intro i hi
    exact hmax i (by rw [hmlen]; exact hi)
  · exact hfirst
  · have hmean : meanSpectrum 8 [[0, 0, 0, 9, 0, 0, 0, 9]]
        = [0, 0, 0, 9, 0, 0, 0, 9] := by
      norm_num [meanSpectrum, List.range_succ]
    rw [peak_frequency, hmean]
    norm_num [argmaxFirst]

/-- Witness for C6 at the tie input itself: snapshot of one row with
equal maxima at bins 3 and 7, frequency axis `[0, …, 7]`. -/
theorem aggregator_peak_frequency_witness :
    peak_frequency [0, 1, 2, 3, 4, 5, 6, 7] 8 [[0, 0, 0, 9, 0, 0, 0, 9]]
      = some 3 :=
  (aggregator_peak_frequency [0, 1, 2, 3, 4, 5, 6, 7] 8
    [[0, 0, 0, 9, 0, 0, 0, 9]] (by norm_num) (by simp)).2.2

/-! ### Session-start validation

Both variants parse the entry fields with `int(...)` inside a `try:`
block and then `assert self.fs > 0 and self.n > 0`; any exception shows an
error dialog and returns before any buffer is allocated or thread
started.  A non-numeric entry is embedded as `none` (the `int()` call
raises), a numeric one as `some value`.  The socket variant also parses
`self.port = int(self.port_entry.get())` but asserts nothing about it. -/

/-- Session state of the socket variant as built after a successful
validation (frequency axis parameters, empty deque, running flag). -/
structure TcpSession where
  fs : Int
  n : Int
  port : Int
  dataEntries : List (ℚ × List ℚ)
  running : Bool
deriving Repr, DecidableEq

/-- `start_observation` of the socket variant: `none` models the
rejected start (error dialog, no session state, no threads). -/
def startTcp (fsEntry nEntry portEntry : Option Int) : Option TcpSession :=
  match fsEntry, nEntry, portEntry with
  | some f, some m, some p =>
      if 0 < f ∧ 0 < m then some ⟨f, m, p, [], true⟩ else none
  | _, _, _ => none

/-- Session state of the synthetic variant (no port). -/
structure InnoSession where
  fs : Int
  n : Int
  running : Bool
deriving Repr, DecidableEq

/-- `start_observation` of the synthetic variant. -/
def startInno (fsEntry nEntry : Option Int) : Option InnoSession :=
  match fsEntry, nEntry with
  | some f, some m => if 0 < f ∧ 0 < m then some ⟨f, m, true⟩ else none
  | _, _ => none

/-- C8 counterexample: with Fs = 8000, N = 4 and the numeric but
non-positive port −1, the socket variant's validation accepts and a
session is created (threads are then spawned), contradicting the claim
that a non-positive port rejects the start. -/
theorem nonpositive_port_accepted :
    startTcp (some 8000) (some 4) (some (-1))
      = some ⟨8000, 4, -1, [], true⟩ ∧ (-1 : Int) ≤ 0 := by
  constructor
  · decide
  · decide

/-- C8 (amended): a session start succeeds exactly when every supplied
entry parses as an integer and Fs and N are positive; otherwise the start
is rejected synchronously with no session state created.  The port, where
present, must parse but its positivity is not checked. -/
theorem session_start_validation (fsEntry nEntry portEntry : Option Int) :
    ((startTcp fsEntry nEntry portEntry).isSome ↔
      (∃ f, fsEntry = some f ∧ 0 < f) ∧ (∃ m, nEntry = some m ∧ 0 < m) ∧
        (∃ p, portEntry = some p)) ∧
    ((startInno fsEntry nEntry).isSome ↔
      (∃ f, fsEntry = some f ∧ 0 < f) ∧ (∃ m, nEntry = some m ∧ 0 < m)) := by
  constructor
  · rcases fsEntry with - | f
    · simp [startTcp]
    · rcases nEntry with - | m
      · simp [startTcp]
      · rcases portEntry with - | p
        · simp [startTcp]
        · by_cases h : 0 < f ∧ 0 < m
          · simp [startTcp, if_pos h, h.1, h.2]
          · rw [startTcp, if_neg h]
            simp only [Option.isSome_none, Bool.false_eq_true, false_iff]
            intro hc
            obtain ⟨⟨f1, hf1, hf2⟩, ⟨m1, hm1, hm2⟩, -⟩ := hc
            rw [Option.some_inj] at hf1 hm1
            exact h ⟨hf1 ▸ hf2, hm1 ▸ hm2⟩
  · rcases fsEntry with - | f
    · simp [startInno]
    · rcases nEntry with - | m
      · simp [startInno]
      · by_cases h : 0 < f ∧ 0 < m
        · simp [startInno, if_pos h, h.1, h.2]
        · rw [startInno, if_neg h]
          simp only [Option.isSome_none, Bool.false_eq_true, false_iff]
          intro hc
          obtain ⟨⟨f1, hf1, hf2⟩, ⟨m1, hm1, hm2⟩⟩ := hc
          rw [Option.some_inj] at hf1 hm1
          exact h ⟨hf1 ▸ hf2, hm1 ▸ hm2⟩

/-- Witness for the amended C8: a start with positive integer Fs and N
and a numeric port proceeds. -/
theorem session_start_validation_witness :
    (startTcp (some 8000) (some 4) (some 9999)).isSome = true :=
  (session_start_validation (some 8000) (some 4) (some 9999)).1.mpr
    ⟨⟨8000, rfl, by norm_num⟩, ⟨4, rfl, by norm_num⟩, ⟨9999, rfl⟩⟩

end SolarRadio
